import Mathlib

/-!
Verification development for `dd_manager.py`, a DefectDojo task-assignment
and statistics script. The Python source is shallowly embedded: the user
store (a JSON object) becomes an association list from string user ids to
user records, timestamps become a structure with a date part and a
sub-day part, remote paged responses become explicit lists of optional
pages, and the random draw of `assign_tasks` is parameterised by an
explicit stream of choice indices. Runtime failures of the Python code
(subscripting `None`, indexing an empty list, `random.choice` on an empty
sequence) are made explicit as `Except` errors.
-/

namespace DDManager

/-- A parsed ISO timestamp: `day` is the value of `.date()` as a day
number, `frac` distinguishes timestamps that fall on the same date
(time of day). `dateutil.parser.isoparse(x) != dateutil.parser.isoparse(y)`
is full equality on both fields. -/
structure DateTime where
  day : Int
  frac : Nat
  deriving DecidableEq, Repr

/-- One entry of a finding's `accepted_risks` list. -/
structure RiskAcceptance where
  owner : Nat
  created : DateTime
  updated : DateTime
  deriving DecidableEq, Repr

/-- A remote finding as the statistics scan reads it. `mitigated` is only
meaningful when `is_mitigated` is true. -/
structure Finding where
  id : Nat
  is_mitigated : Bool
  mitigated : DateTime
  mitigated_by : Nat
  risk_accepted : Bool
  accepted_risks : List RiskAcceptance
  deriving DecidableEq, Repr

/-- A user record of `tasks.json`: counters are non-negative integers,
`debt` may go negative, `tasks` is the ordered list of assigned finding
ids. -/
structure User where
  name : String
  norm : Nat
  closed : Nat
  risk_accepted : Nat
  task_closed : Nat
  debt : Int
  tasks : List Nat
  deriving DecidableEq, Repr

/-- The task store `self.users`: a JSON object mapping user-id strings to
user records, embedded as an association list with unique keys. -/
abbrev Store := List (String × User)

/-- `self.users[user_id]` as an optional lookup (first matching key). -/
def lookup : Store → String → Option User
  | [], _ => none
  | (k, u) :: rest, i => if k = i then some u else lookup rest i

/-- In-place mutation of `self.users[user_id]`: applies `f` to the value
at the first matching key, leaving everything else untouched. -/
def updateUser : Store → String → (User → User) → Store
  | [], _, _ => []
  | (k, u) :: rest, i, f =>
    if k = i then (k, f u) :: rest else (k, u) :: updateUser rest i f

/-- One paged API response body: the `results` array and the truthiness
of the `next` field. -/
structure Page where
  results : List Finding
  next : Bool
  deriving DecidableEq, Repr

/-- The runtime errors the embedded scans can raise: subscripting a
`None` response (`TypeError`) and reading index 0 of an empty list
(`IndexError`). -/
inductive ScanError where
  | noneSubscript
  | indexOutOfBounds
  deriving DecidableEq, Repr

/-- The two counter fields `_close_task` is called with
(`finding_type` is `"closed"` or `"risk_accepted"`). -/
inductive FType where
  | closed
  | riskAccepted
  deriving DecidableEq, Repr

/-- `user[finding_type] += 1`. -/
def bumpCounter (u : User) : FType → User
  | .closed => { u with closed := u.closed + 1 }
  | .riskAccepted => { u with risk_accepted := u.risk_accepted + 1 }

/-- The user-record update performed by `_close_task` once the user is
found: increment the named counter, and if the finding id is in the
user's `tasks`, increment `task_closed` and remove it (Python
`list.remove`: first occurrence). -/
def closeUpd (findingId : Nat) (ftype : FType) (u : User) : User :=
  let u' := bumpCounter u ftype
  if findingId ∈ u'.tasks then
    { u' with task_closed := u'.task_closed + 1,
              tasks := u'.tasks.erase findingId }
  else u'

/-- `DD._close_task`: look up the user (unknown ids are logged and
skipped), then apply `closeUpd` in place. -/
def closeTask (users : Store) (userId : String) (findingId : Nat)
    (ftype : FType) : Store :=
  match lookup users userId with
  | none => users
  | some _ => updateUser users userId (closeUpd findingId ftype)

/-- The finding loop of `DD._get_findings` over one page's `results`.
Returns the updated store together with `true` when the loop ran to the
end (so the pagination check happens) and `false` when the Python
`return` fired (scan stops). Reading `accepted_risks[0]` of an empty
list is the `IndexError` case. -/
def processFindings (startD endD : Int) (users : Store) :
    List Finding → Except ScanError (Store × Bool)
  | [] => .ok (users, true)
  | f :: rest =>
    if f.is_mitigated then
      if endD < f.mitigated.day then
        processFindings startD endD users rest
      else if f.mitigated.day < startD then
        .ok (users, false)
      else
        processFindings startD endD
          (closeTask users (toString f.mitigated_by) f.id .closed) rest
    else if f.risk_accepted then
      match f.accepted_risks with
      | [] => .error .indexOutOfBounds
      | ra :: _ =>
        if endD < ra.created.day then
          processFindings startD endD users rest
        else if ra.created.day < startD then
          if ra.created ≠ ra.updated then
            processFindings startD endD users rest
          else
            .ok (users, false)
        else
          processFindings startD endD
            (closeTask users (toString ra.owner) f.id .riskAccepted) rest
    else
      processFindings startD endD users rest

/-- `DD._get_findings` over the stream of successive page responses, one
response per (recursive) call. A `none` response models a failed fetch:
the code then evaluates `findings_temp["results"]` on `None`, a
`TypeError`. Recursion happens only while the loop finished and `next`
was truthy. -/
def getFindings (startD endD : Int) (users : Store) :
    List (Option Page) → Except ScanError Store
  | [] => .error .noneSubscript
  | none :: _ => .error .noneSubscript
  | some page :: rest =>
    match processFindings startD endD users page.results with
    | .error e => .error e
    | .ok (users', cont) =>
      if cont && page.next then getFindings startD endD users' rest
      else .ok users'

/-- `DD._calculate_debts`: for every user,
`debt += norm - (closed + risk_accepted)`. -/
def calculateDebts (users : Store) : Store :=
  users.map fun ku =>
    (ku.1, { ku.2 with
      debt := ku.2.debt + (ku.2.norm : Int)
        - ((ku.2.closed : Int) + (ku.2.risk_accepted : Int)) })

/-- `DD._clean_stats`: zero the period counters of every user. -/
def cleanStats (users : Store) : Store :=
  users.map fun ku =>
    (ku.1, { ku.2 with task_closed := 0, closed := 0, risk_accepted := 0 })

/-- `DD.get_statistic`: run the scan, accrue debts, print (no state
effect), and on `save` reset the period counters before writing the
file. The returned store is what `_write_tasks_file` would persist
(or the in-memory store when `save` is false). -/
def getStatistic (startD endD : Int) (users : Store)
    (responses : List (Option Page)) (save : Bool) :
    Except ScanError Store :=
  match getFindings startD endD users responses with
  | .error e => .error e
  | .ok s =>
    let s' := calculateDebts s
    if save then .ok (cleanStats s') else .ok s'

/-- `DD._send_request`: the GET either yields a parsed body or raises;
the `except` branch logs and returns `None`. -/
def sendRequest (outcome : Except String Page) : Option Page :=
  match outcome with
  | .ok p => some p
  | .error _ => none

/-- `DD._construct_url` with its `dir="finding"` default. -/
def constructUrl (i : Nat) (dir : String := "finding") : String :=
  "https://dd.codescoring.tech/" ++ dir ++ "/" ++ toString i

/-- The runtime errors of `assign_tasks`: `random.choice` on an empty
sequence (`IndexError`) and subscripting a `None` response. -/
inductive AssignError where
  | emptyChoice
  | noneSubscript
  deriving DecidableEq, Repr

/-- The inner draw loop of `assign_tasks` for one user:
`for _ in range(norm)` pick a random finding (`random.choice`, embedded
as taking the next index of the `picks` stream modulo the pool length),
append its id to the user's `tasks`, and delete the first equal element
from the shared pool (`list.remove`). `random.choice` on an empty pool
raises. -/
def drawTasks (u : User) (pool : List Finding) (picks : List Nat) :
    Nat → Except AssignError (User × List Finding × List Nat)
  | 0 => .ok (u, pool, picks)
  | Nat.succ n =>
    match pool with
    | [] => .error .emptyChoice
    | f₀ :: fs =>
      let f := (f₀ :: fs).get
        ⟨picks.headD 0 % (f₀ :: fs).length,
         Nat.mod_lt _ (Nat.succ_pos fs.length)⟩
      drawTasks { u with tasks := u.tasks ++ [f.id] }
        ((f₀ :: fs).erase f) picks.tail n

/-- The per-user loop of `assign_tasks`: users in map-iteration order,
each drawing `norm` findings from the shared pool (printing has no
state effect). The pool and the choice stream are threaded through. -/
def assignAll : List (String × User) → List Finding → List Nat →
    Except AssignError (Store × List Finding × List Nat)
  | [], pool, picks => .ok ([], pool, picks)
  | (k, u) :: rest, pool, picks =>
    match drawTasks u pool picks u.norm with
    | .error e => .error e
    | .ok (u', pool', picks') =>
      match assignAll rest pool' picks' with
      | .error e => .error e
      | .ok (rest', pool'', picks'') => .ok ((k, u') :: rest', pool'', picks'')

/-- `DD.assign_tasks`: fetch one page of open untagged findings (a
`None` response crashes on `findings_temp["results"]`), then distribute;
tagging and file writing have no effect on the computed store. -/
def assignTasks (resp : Option Page) (users : Store) (picks : List Nat) :
    Except AssignError (Store × List Finding) :=
  match resp with
  | none => .error .noneSubscript
  | some page =>
    match assignAll users page.results picks with
    | .error e => .error e
    | .ok (users', pool', _) => .ok (users', pool')

/-- One record of the `risk_acceptance` collection as
`_check_reactivate_expired` reads it. -/
structure AcceptanceRecord where
  id : Nat
  reactivate_expired : Bool
  accepted_findings : List Nat
  deriving DecidableEq, Repr

/-- The line `_check_reactivate_expired` prints for one record, if any:
flagged records with a linked accepted finding print that finding's URL;
flagged records without one print `_construct_url` of the acceptance's
own id (with the default `"finding"` directory). -/
def reactivateLine (r : AcceptanceRecord) : Option String :=
  if r.reactivate_expired then
    match r.accepted_findings with
    | f :: _ => some ("reactivate_expired is true: " ++ constructUrl f)
    | [] => some ("not risk_accepted but reactivate_expired: "
        ++ constructUrl r.id)
  else none

/-- The printed output of one page of the reactivate-expired scan. -/
def checkReactivateExpiredPage (recs : List AcceptanceRecord) : List String :=
  recs.filterMap reactivateLine

/-! ## Concrete fixtures used by witnesses and counterexamples -/

/-- A sample user record. -/
def wUser : User :=
  { name := "alice", norm := 5, closed := 0, risk_accepted := 0,
    task_closed := 0, debt := 2, tasks := [10, 11] }

/-- A one-user sample store keyed by `"42"`. -/
def wStore : Store := [("42", wUser)]

/-- A sample mitigated finding, mitigated on day `d` by user 42. -/
def wMit (d : Int) (fid : Nat) : Finding :=
  { id := fid, is_mitigated := true, mitigated := ⟨d, 0⟩, mitigated_by := 42,
    risk_accepted := false, accepted_risks := [] }

/-- A sample risk-accepted finding owned by user 42. -/
def wRA (c u : DateTime) (fid : Nat) : Finding :=
  { id := fid, is_mitigated := false, mitigated := ⟨0, 0⟩, mitigated_by := 0,
    risk_accepted := true, accepted_risks := [⟨42, c, u⟩] }

/-- A sample finding whose `risk_accepted` flag is true but whose
`accepted_risks` list is empty. -/
def wEmptyRisks : Finding :=
  { id := 5, is_mitigated := false, mitigated := ⟨0, 0⟩, mitigated_by := 0,
    risk_accepted := true, accepted_risks := [] }

/-! ## Helper lemmas -/

theorem lookup_updateUser (s : Store) (i : String) (f : User → User)
    (j : String) :
    lookup (updateUser s i f) j =
      if j = i then (lookup s i).map f else lookup s j := by
  induction s with
  | nil => simp [lookup, updateUser]
  | cons ku rest ih =>
    obtain ⟨k, u⟩ := ku
    by_cases hki : k = i
    · subst hki
      by_cases hj : j = k
      · subst hj
        simp [lookup, updateUser]
      · have hkj : ¬ k = j := fun h => hj h.symm
        simp [lookup, updateUser, hj, hkj]
    · by_cases hkj : k = j
      · subst hkj
        have hji : ¬ k = i := hki
        simp [lookup, updateUser, hki, hji]
      · have hjk : ¬ j = k := fun h => hkj h.symm
        simp [lookup, updateUser, hki, hkj, ih]

theorem lookup_closeTask (users : Store) (i : String) (fid : Nat)
    (t : FType) (j : String) :
    lookup (closeTask users i fid t) j =
      if j = i then (lookup users i).map (closeUpd fid t)
      else lookup users j := by
  unfold closeTask
  cases h : lookup users i with
  | none =>
    by_cases hj : j = i <;> simp [hj, h]
  | some u => simp [lookup_updateUser, h]

theorem closeUpd_mem (fid : Nat) (t : FType) (u : User)
    (h : fid ∈ u.tasks) :
    (closeUpd fid t u).task_closed = u.task_closed + 1 ∧
    (closeUpd fid t u).tasks = u.tasks.erase fid := by
  cases t <;> simp [closeUpd, bumpCounter, h]

theorem closeUpd_not_mem (fid : Nat) (t : FType) (u : User)
    (h : fid ∉ u.tasks) :
    (closeUpd fid t u).task_closed = u.task_closed ∧
    (closeUpd fid t u).tasks = u.tasks := by
  cases t <;> simp [closeUpd, bumpCounter, h]

theorem closeUpd_closed (fid : Nat) (u : User) :
    (closeUpd fid .closed u).closed = u.closed + 1 := by
  by_cases h : fid ∈ u.tasks <;> simp [closeUpd, bumpCounter, h]

theorem closeUpd_riskAccepted (fid : Nat) (u : User) :
    (closeUpd fid .riskAccepted u).risk_accepted = u.risk_accepted + 1 := by
  by_cases h : fid ∈ u.tasks <;> simp [closeUpd, bumpCounter, h]

/-! ## C1: the mitigated branch of the statistics scan -/

/-- C1. In the statistics scan, for every finding with `is_mitigated`
true: a mitigated date after the window's end skips the finding and
scanning continues; a mitigated date before the window's start stops the
entire scan (the page loop returns and no further page is fetched);
otherwise the user named by `mitigated_by` has `closed` incremented by 1,
and if the finding's id is in that user's `tasks` it is removed and
`task_closed` is incremented by 1. Stated for a well-formed window
(`startD ≤ endD`); the code tests the end bound first, so the two date
tests are exclusive exactly then. -/
theorem mitigated_branch_correct (startD endD : Int) (users : Store)
    (f : Finding) (rest : List Finding) (hws : startD ≤ endD)
    (hm : f.is_mitigated = true) :
    (endD < f.mitigated.day →
      processFindings startD endD users (f :: rest) =
        processFindings startD endD users rest) ∧
    (f.mitigated.day < startD →
      processFindings startD endD users (f :: rest) = .ok (users, false) ∧
      ∀ nxt more,
        getFindings startD endD users (some ⟨f :: rest, nxt⟩ :: more) =
          .ok users) ∧
    (startD ≤ f.mitigated.day → f.mitigated.day ≤ endD →
      processFindings startD endD users (f :: rest) =
        processFindings startD endD
          (closeTask users (toString f.mitigated_by) f.id .closed) rest ∧
      ∀ u, lookup users (toString f.mitigated_by) = some u →
        ∃ u', lookup (closeTask users (toString f.mitigated_by) f.id .closed)
            (toString f.mitigated_by) = some u' ∧
          u'.closed = u.closed + 1 ∧
          (f.id ∈ u.tasks →
            u'.task_closed = u.task_closed + 1 ∧
            u'.tasks = u.tasks.erase f.id) ∧
          (f.id ∉ u.tasks →
            u'.task_closed = u.task_closed ∧ u'.tasks = u.tasks)) := by
  refine ⟨fun h1 => ?_, fun h2 => ?_, fun h3 h4 => ⟨?_, ?_⟩⟩
  · simp [processFindings, hm, h1]
  · have hd1 : ¬ endD < f.mitigated.day :=
      not_lt.mpr (le_of_lt (lt_of_lt_of_le h2 hws))
    refine ⟨?_, fun nxt more => ?_⟩
    · simp [processFindings, hm, hd1, h2]
    · simp [getFindings, processFindings, hm, hd1, h2]
  · simp [processFindings, hm, not_lt.mpr h3, not_lt.mpr h4]
  · intro u hu
    refine ⟨closeUpd f.id .closed u, ?_, closeUpd_closed f.id u,
      fun hmem => closeUpd_mem f.id .closed u hmem,
      fun hmem => closeUpd_not_mem f.id .closed u hmem⟩
    simp [lookup_closeTask, hu]

/-- Witness for C1 at concrete inputs: a finding mitigated on day 0
against window `[1, 7]` stops the scan. -/
theorem mitigated_branch_correct_witness :
    processFindings 1 7 wStore [wMit 0 10] = .ok (wStore, false) :=
  ((mitigated_branch_correct 1 7 wStore (wMit 0 10) [] (by decide) rfl).2.1
    (by decide)).1

/-! ## C2: the risk-accepted branch of the statistics scan -/

/-- C2. For every non-mitigated finding with `risk_accepted` true, only
the first `accepted_risks` record matters: a `created` date after the
window's end skips the finding; a `created` date before the window's
start continues the scan when the record's `created` timestamp differs
from its `updated` timestamp and otherwise stops the entire scan; a
`created` date inside the window increments the owner's `risk_accepted`
counter, with `tasks` removal and `task_closed` increment as for a
closure. Stated for a well-formed window (`startD ≤ endD`). -/
theorem risk_branch_correct (startD endD : Int) (users : Store)
    (f : Finding) (rest : List Finding) (ra : RiskAcceptance)
    (rs : List RiskAcceptance) (hws : startD ≤ endD)
    (hm : f.is_mitigated = false)
    (hr : f.risk_accepted = true) (hl : f.accepted_risks = ra :: rs) :
    (endD < ra.created.day →
      processFindings startD endD users (f :: rest) =
        processFindings startD endD users rest) ∧
    (ra.created.day < startD → ra.created ≠ ra.updated →
      processFindings startD endD users (f :: rest) =
        processFindings startD endD users rest) ∧
    (ra.created.day < startD → ra.created = ra.updated →
      processFindings startD endD users (f :: rest) = .ok (users, false) ∧
      ∀ nxt more,
        getFindings startD endD users (some ⟨f :: rest, nxt⟩ :: more) =
          .ok users) ∧
    (startD ≤ ra.created.day → ra.created.day ≤ endD →
      processFindings startD endD users (f :: rest) =
        processFindings startD endD
          (closeTask users (toString ra.owner) f.id .riskAccepted) rest ∧
      ∀ u, lookup users (toString ra.owner) = some u →
        ∃ u', lookup
            (closeTask users (toString ra.owner) f.id .riskAccepted)
            (toString ra.owner) = some u' ∧
          u'.risk_accepted = u.risk_accepted + 1 ∧
          (f.id ∈ u.tasks →
            u'.task_closed = u.task_closed + 1 ∧
            u'.tasks = u.tasks.erase f.id) ∧
          (f.id ∉ u.tasks →
            u'.task_closed = u.task_closed ∧ u'.tasks = u.tasks)) := by
  refine ⟨fun h1 => ?_, fun h2 hne => ?_,
    fun h2 heq => ?_, fun h3 h4 => ⟨?_, ?_⟩⟩
  · simp [processFindings, hm, hr, hl, h1]
  · have hd1 : ¬ endD < ra.created.day :=
      not_lt.mpr (le_of_lt (lt_of_lt_of_le h2 hws))
    simp [processFindings, hm, hr, hl, hd1, h2, hne]
  · have hd1 : ¬ endD < ra.created.day :=
      not_lt.mpr (le_of_lt (lt_of_lt_of_le h2 hws))
    have e : ra.updated = ra.created := heq.symm
    refine ⟨?_, fun nxt more => ?_⟩
    · simp [processFindings, hm, hr, hl, e, hd1, h2]
    · simp [getFindings, processFindings, hm, hr, hl, e, hd1, h2]
  · simp [processFindings, hm, hr, hl, not_lt.mpr h3, not_lt.mpr h4]
  · intro u hu
    refine ⟨closeUpd f.id .riskAccepted u, ?_,
      closeUpd_riskAccepted f.id u,
      fun hmem => closeUpd_mem f.id .riskAccepted u hmem,
      fun hmem => closeUpd_not_mem f.id .riskAccepted u hmem⟩
    simp [lookup_closeTask, hu]

/-- Witness for C2 at concrete inputs: a risk acceptance created before
the window but edited (`created ≠ updated`) is skipped and scanning
continues. -/
theorem risk_branch_correct_witness :
    processFindings 1 7 wStore [wRA ⟨0, 1⟩ ⟨0, 2⟩ 11] =
      processFindings 1 7 wStore [] :=
  (risk_branch_correct 1 7 wStore (wRA ⟨0, 1⟩ ⟨0, 2⟩ 11) [] ⟨42, ⟨0, 1⟩, ⟨0, 2⟩⟩
    [] (by decide) rfl rfl rfl).2.1 (by decide) (by decide)

/-! ## Lookup through value-mapping passes (`_calculate_debts`,
`_clean_stats`) -/

theorem lookup_mapVal (g : User → User) (s : Store) (i : String) :
    lookup (s.map fun ku => (ku.1, g ku.2)) i = (lookup s i).map g := by
  induction s with
  | nil => rfl
  | cons ku rest ih =>
    obtain ⟨k, u⟩ := ku
    by_cases h : k = i <;> simp [lookup, h, ih]

theorem lookup_cleanStats (s : Store) (i : String) :
    lookup (cleanStats s) i = (lookup s i).map
      (fun u => { u with task_closed := 0, closed := 0, risk_accepted := 0 }) :=
  lookup_mapVal
    (fun u => { u with task_closed := 0, closed := 0, risk_accepted := 0 }) s i

theorem lookup_calculateDebts (s : Store) (i : String) :
    lookup (calculateDebts s) i = (lookup s i).map
      (fun u => { u with
        debt := u.debt + (u.norm : Int)
          - ((u.closed : Int) + (u.risk_accepted : Int)) }) :=
  lookup_mapVal
    (fun u => { u with
      debt := u.debt + (u.norm : Int)
        - ((u.closed : Int) + (u.risk_accepted : Int)) }) s i

/-! ## C8: the save-time counter reset -/

/-- C8. When a statistics run is persisted, the period counters
`closed`, `risk_accepted` and `task_closed` are zeroed for every user
before the file is written, while `debt`, `norm`, `name` and `tasks`
are left unchanged by the reset step: the persisted store is exactly
`cleanStats` of the post-debt store, which rewrites each user record
keeping every other field. -/
theorem save_resets_period_counters (startD endD : Int) (users : Store)
    (responses : List (Option Page)) (s₁ : Store)
    (hscan : getFindings startD endD users responses = .ok s₁) :
    getStatistic startD endD users responses true =
      .ok (cleanStats (calculateDebts s₁)) ∧
    ∀ i u, lookup (calculateDebts s₁) i = some u →
      lookup (cleanStats (calculateDebts s₁)) i =
        some { name := u.name, norm := u.norm, closed := 0,
               risk_accepted := 0, task_closed := 0, debt := u.debt,
               tasks := u.tasks } := by
  constructor
  · simp [getStatistic, hscan]
  · intro i u hu
    simp [lookup_cleanStats, hu]

/-- Witness for C8: a save run over an empty single page persists the
reset of the sample store. -/
theorem save_resets_period_counters_witness :
    getStatistic 1 7 wStore [some ⟨[], false⟩] true =
      .ok (cleanStats (calculateDebts wStore)) :=
  (save_resets_period_counters 1 7 wStore [some ⟨[], false⟩] wStore rfl).1

/-! ## C9: the reactivate-expired validation scan -/

/-- C9 counterexample: a flagged acceptance record with no linked
finding has its own id printed under the default `"finding"` URL
directory — the very same URL the linked-finding branch prints for
finding 7 — so the printed URL is a finding-form URL, not an
acceptance-resource URL. -/
theorem reactivate_expired_url_counterexample :
    checkReactivateExpiredPage [⟨7, true, []⟩] =
      ["not risk_accepted but reactivate_expired: https://dd.codescoring.tech/finding/7"] ∧
    checkReactivateExpiredPage [⟨99, true, [7]⟩] =
      ["reactivate_expired is true: https://dd.codescoring.tech/finding/7"] := by
  exact ⟨rfl, rfl⟩

/-- C9 (amended). For every risk-acceptance record with
`reactivate_expired` true: with at least one linked accepted finding,
the linked finding's URL is printed; with no linked finding, a URL
built from the acceptance's own id is printed, but it uses the default
`"finding"` directory of `_construct_url`, i.e. it has the form of a
finding URL, not of a distinct acceptance resource. -/
theorem reactivate_expired_url (r : AcceptanceRecord)
    (h : r.reactivate_expired = true) :
    (∀ f fs, r.accepted_findings = f :: fs →
      reactivateLine r =
        some ("reactivate_expired is true: " ++ constructUrl f "finding")) ∧
    (r.accepted_findings = [] →
      reactivateLine r =
        some ("not risk_accepted but reactivate_expired: "
          ++ constructUrl r.id "finding")) := by
  constructor
  · intro f fs hf
    simp [reactivateLine, h, hf]
  · intro hf
    simp [reactivateLine, h, hf]

/-- Witness for C9 at a concrete record with no linked finding. -/
theorem reactivate_expired_url_witness :
    reactivateLine ⟨7, true, []⟩ =
      some ("not risk_accepted but reactivate_expired: "
        ++ constructUrl 7 "finding") :=
  (reactivate_expired_url ⟨7, true, []⟩ rfl).2 rfl

/-! ## C10: empty `accepted_risks` crashes the scan -/

theorem processFindings_ok_of_nonempty_risks (startD endD : Int) :
    ∀ (fs : List Finding) (users : Store),
      (∀ f ∈ fs, f.is_mitigated = false → f.risk_accepted = true →
        f.accepted_risks ≠ []) →
      ∃ r, processFindings startD endD users fs = .ok r := by
  intro fs
  induction fs with
  | nil => exact fun users _ => ⟨(users, true), rfl⟩
  | cons f rest ih =>
    intro users h
    have hrest : ∀ g ∈ rest, g.is_mitigated = false → g.risk_accepted = true →
        g.accepted_risks ≠ [] :=
      fun g hg => h g (List.mem_cons_of_mem f hg)
    by_cases hm : f.is_mitigated
    · by_cases h1 : endD < f.mitigated.day
      · obtain ⟨r, hr⟩ := ih users hrest
        exact ⟨r, by simp [processFindings, hm, h1, hr]⟩
      · by_cases h2 : f.mitigated.day < startD
        · exact ⟨(users, false), by simp [processFindings, hm, h1, h2]⟩
        · obtain ⟨r, hr⟩ :=
            ih (closeTask users (toString f.mitigated_by) f.id .closed) hrest
          exact ⟨r, by simp [processFindings, hm, h1, h2, hr]⟩
    · by_cases hr : f.risk_accepted
      · have hne := h f (List.mem_cons_self f rest) (by simpa using hm) hr
        obtain ⟨ra, rs, hl⟩ : ∃ ra rs, f.accepted_risks = ra :: rs := by
          cases hap : f.accepted_risks with
          | nil => exact absurd hap hne
          | cons a as => exact ⟨a, as, rfl⟩
        by_cases h1 : endD < ra.created.day
        · obtain ⟨r, hrr⟩ := ih users hrest
          exact ⟨r, by simp [processFindings, hm, hr, hl, h1, hrr]⟩
        · by_cases h2 : ra.created.day < startD
          · by_cases h3 : ra.created = ra.updated
            · have e : ra.updated = ra.created := h3.symm
              exact ⟨(users, false),
                by simp [processFindings, hm, hr, hl, h1, h2, e]⟩
            · obtain ⟨r, hrr⟩ := ih users hrest
              exact ⟨r, by simp [processFindings, hm, hr, hl, h1, h2, h3, hrr]⟩
          · obtain ⟨r, hrr⟩ :=
              ih (closeTask users (toString ra.owner) f.id .riskAccepted) hrest
            exact ⟨r, by simp [processFindings, hm, hr, hl, h1, h2, hrr]⟩
      · obtain ⟨r, hrr⟩ := ih users hrest
        exact ⟨r, by simp [processFindings, hm, hr, hrr]⟩

/-- C10. A non-mitigated finding with `risk_accepted` true but an empty
`accepted_risks` list crashes the scan: `accepted_risks[0]` is read
before the length check, an `IndexError`, and the error propagates
through `_get_findings`. Conversely, when every risk-accepted
non-mitigated finding carries a non-empty `accepted_risks` list, the
page loop never raises that error. -/
theorem risk_accepted_empty_risks_crash (startD endD : Int)
    (users : Store) :
    processFindings startD endD users [wEmptyRisks] =
      .error .indexOutOfBounds ∧
    getFindings startD endD users [some ⟨[wEmptyRisks], false⟩] =
      .error .indexOutOfBounds ∧
    ∀ fs : List Finding,
      (∀ f ∈ fs, f.is_mitigated = false → f.risk_accepted = true →
        f.accepted_risks ≠ []) →
      processFindings startD endD users fs ≠ .error .indexOutOfBounds := by
  refine ⟨rfl, rfl, fun fs h => ?_⟩
  obtain ⟨r, hr⟩ := processFindings_ok_of_nonempty_risks startD endD fs users h
  simp [hr]

/-- Witness for C10: a list with only a mitigated finding cannot raise
the index error. -/
theorem risk_accepted_empty_risks_crash_witness :
    processFindings 1 7 wStore [wMit 3 10] ≠
      Except.error ScanError.indexOutOfBounds :=
  (risk_accepted_empty_risks_crash 1 7 wStore).2.2 [wMit 3 10] (by decide)

/-! ## C6: `None` responses from `_send_request` -/

/-- C6 counterexample: with an absent (failed) first page, the
statistics scan does not terminate cleanly with the store unchanged —
subscripting the `None` response is a `TypeError`, so the run aborts
with an error and yields no store. -/
theorem none_response_counterexample :
    getFindings 1 7 wStore [none] = .error .noneSubscript ∧
    getStatistic 1 7 wStore [none] false = .error .noneSubscript := by
  exact ⟨rfl, rfl⟩

/-- C6 (amended). `_send_request` returns `None` on any transport or
parse failure (the exception is logged, not re-raised), but its callers
never check for `None`: the statistics scan evaluates
`findings_temp["results"]` on the absent response, so a failed page
fetch aborts the scan with a `TypeError` instead of stopping silently. -/
theorem fetch_failure_behavior (e : String) (startD endD : Int)
    (users : Store) (rest : List (Option Page)) :
    sendRequest (.error e) = none ∧
    getFindings startD endD users (none :: rest) = .error .noneSubscript :=
  ⟨rfl, rfl⟩

/-! ## C7: pool exhaustion during assignment -/

theorem drawTasks_ok_iff : ∀ (n : Nat) (u : User) (pool : List Finding)
    (picks : List Nat),
    (∃ r, drawTasks u pool picks n = .ok r) ↔ n ≤ pool.length := by
  intro n
  induction n with
  | zero =>
    intro u pool picks
    simp [drawTasks]
  | succ n ih =>
    intro u pool picks
    match pool with
    | [] => simp [drawTasks]
    | f₀ :: fs =>
      simp only [drawTasks]
      rw [ih]
      rw [List.length_erase_of_mem (List.get_mem _ _ _)]
      simp only [List.length_cons]
      omega

theorem drawTasks_length : ∀ (n : Nat) (u : User) (pool : List Finding)
    (picks : List Nat) (u' : User) (pool' : List Finding) (picks' : List Nat),
    drawTasks u pool picks n = .ok (u', pool', picks') →
    pool'.length + n = pool.length := by
  intro n
  induction n with
  | zero =>
    intro u pool picks u' pool' picks' h
    simp [drawTasks] at h
    rw [h.2.1]
    simp
  | succ n ih =>
    intro u pool picks u' pool' picks' h
    match pool with
    | [] => simp [drawTasks] at h
    | f₀ :: fs =>
      simp only [drawTasks] at h
      have := ih _ _ _ _ _ _ h
      rw [List.length_erase_of_mem (List.get_mem _ _ _)] at this
      simp only [List.length_cons] at this ⊢
      omega

theorem drawTasks_error_eq : ∀ (n : Nat) (u : User) (pool : List Finding)
    (picks : List Nat) (e : AssignError),
    drawTasks u pool picks n = .error e → e = .emptyChoice := by
  intro n
  induction n with
  | zero =>
    intro u pool picks e h
    simp [drawTasks] at h
  | succ n ih =>
    intro u pool picks e h
    match pool with
    | [] =>
      simp [drawTasks] at h
      exact h.symm
    | f₀ :: fs =>
      simp only [drawTasks] at h
      exact ih _ _ _ _ h

theorem assignAll_ok_iff : ∀ (users : List (String × User))
    (pool : List Finding) (picks : List Nat),
    (∃ r, assignAll users pool picks = .ok r) ↔
      (users.map fun ku => ku.2.norm).sum ≤ pool.length := by
  intro users
  induction users with
  | nil =>
    intro pool picks
    simp [assignAll]
  | cons ku rest ih =>
    intro pool picks
    obtain ⟨k, u⟩ := ku
    simp only [List.map_cons, List.sum_cons]
    by_cases hn : u.norm ≤ pool.length
    · obtain ⟨⟨u', pool', picks'⟩, hd⟩ :=
        (drawTasks_ok_iff u.norm u pool picks).mpr hn
      have hlen := drawTasks_length u.norm u pool picks u' pool' picks' hd
      have hstep : assignAll ((k, u) :: rest) pool picks =
          match assignAll rest pool' picks' with
          | .error e => .error e
          | .ok (rest', pool'', picks'') =>
            .ok ((k, u') :: rest', pool'', picks'') := by
        simp [assignAll, hd]
      rcases ha : assignAll rest pool' picks' with e | ⟨rest', pool'', picks''⟩
      · rw [hstep, ha]
        constructor
        · rintro ⟨r, hr⟩
          cases hr
        · intro hle
          exfalso
          have hsum : (rest.map fun ku => ku.2.norm).sum ≤ pool'.length := by
            omega
          obtain ⟨r, hr⟩ := (ih pool' picks').mpr hsum
          rw [ha] at hr
          cases hr
      · rw [hstep, ha]
        have hsum : (rest.map fun ku => ku.2.norm).sum ≤ pool'.length :=
          (ih pool' picks').mp ⟨_, ha⟩
        constructor
        · intro _
          omega
        · intro _
          exact ⟨_, rfl⟩
    · rcases hd : drawTasks u pool picks u.norm with e | r
      · have hstep : assignAll ((k, u) :: rest) pool picks = .error e := by
          simp [assignAll, hd]
        rw [hstep]
        constructor
        · rintro ⟨r, hr⟩
          cases hr
        · intro hle
          exact absurd (by omega : u.norm ≤ pool.length) hn
      · exact absurd ((drawTasks_ok_iff u.norm u pool picks).mp ⟨r, hd⟩) hn

theorem assignAll_error_eq : ∀ (users : List (String × User))
    (pool : List Finding) (picks : List Nat) (e : AssignError),
    assignAll users pool picks = .error e → e = .emptyChoice := by
  intro users
  induction users with
  | nil =>
    intro pool picks e h
    simp [assignAll] at h
  | cons ku rest ih =>
    intro pool picks e h
    obtain ⟨k, u⟩ := ku
    rcases hd : drawTasks u pool picks u.norm with e' | ⟨u', pool', picks'⟩
    · simp [assignAll, hd] at h
      exact h ▸ drawTasks_error_eq u.norm u pool picks e' hd
    · rcases ha : assignAll rest pool' picks' with e'' | r
      · simp [assignAll, hd, ha] at h
        exact h ▸ ih pool' picks' e'' ha
      · simp [assignAll, hd, ha] at h

/-- C7. During assignment, drawing on an empty pool is a fatal
`random.choice` failure: with a fetched page, the run completes without
error exactly when the pool holds at least the sum of all users' norms,
and otherwise it aborts with the empty-choice error rather than
truncating a user's assignment. -/
theorem assignment_pool_exhaustion (users : Store) (page : Page)
    (picks : List Nat) :
    ((∃ r, assignTasks (some page) users picks = .ok r) ↔
      (users.map fun ku => ku.2.norm).sum ≤ page.results.length) ∧
    (assignTasks (some page) users picks = .error .emptyChoice ↔
      page.results.length < (users.map fun ku => ku.2.norm).sum) := by
  have hiff : (∃ r, assignAll users page.results picks = .ok r) ↔
      (users.map fun ku => ku.2.norm).sum ≤ page.results.length :=
    assignAll_ok_iff users page.results picks
  constructor
  · constructor
    · rintro ⟨r, hr⟩
      rcases ha : assignAll users page.results picks with e | q
      · simp [assignTasks, ha] at hr
      · exact hiff.mp ⟨q, ha⟩
    · intro hle
      obtain ⟨⟨us', pool', picks'⟩, ha⟩ := hiff.mpr hle
      exact ⟨(us', pool'), by simp [assignTasks, ha]⟩
  · constructor
    · intro herr
      rcases ha : assignAll users page.results picks with e | q
      · by_contra hlt
        have hle : (users.map fun ku => ku.2.norm).sum ≤
            page.results.length := by omega
        obtain ⟨r, hr⟩ := hiff.mpr hle
        rw [ha] at hr
        cases hr
      · obtain ⟨us', pool', picks'⟩ := q
        simp [assignTasks, ha] at herr
    · intro hlt
      rcases ha : assignAll users page.results picks with e | q
      · have he := assignAll_error_eq users page.results picks e ha
        subst he
        simp [assignTasks, ha]
      · exfalso
        have := hiff.mp ⟨q, ha⟩
        omega

/-! ## Scan preservation: the statistics scan never touches `name`,
`norm` or `debt` -/

/-- The scan keeps every user present with the same `name`, `norm` and
`debt`. -/
def preservesCore (s s' : Store) : Prop :=
  ∀ i u, lookup s i = some u → ∃ u', lookup s' i = some u' ∧
    u'.name = u.name ∧ u'.norm = u.norm ∧ u'.debt = u.debt

theorem preservesCore_refl (s : Store) : preservesCore s s :=
  fun _ u h => ⟨u, h, rfl, rfl, rfl⟩

theorem preservesCore_trans {s₁ s₂ s₃ : Store}
    (h₁ : preservesCore s₁ s₂) (h₂ : preservesCore s₂ s₃) :
    preservesCore s₁ s₃ := by
  intro i u h
  obtain ⟨u', hl', hn', hm', hd'⟩ := h₁ i u h
  obtain ⟨u'', hl'', hn'', hm'', hd''⟩ := h₂ i u' hl'
  exact ⟨u'', hl'', hn''.trans hn', hm''.trans hm', hd''.trans hd'⟩

theorem closeUpd_core (fid : Nat) (t : FType) (u : User) :
    (closeUpd fid t u).name = u.name ∧ (closeUpd fid t u).norm = u.norm ∧
    (closeUpd fid t u).debt = u.debt := by
  cases t <;> by_cases h : fid ∈ u.tasks <;>
    simp [closeUpd, bumpCounter, h]

theorem closeTask_preserves (s : Store) (uid : String) (fid : Nat)
    (t : FType) : preservesCore s (closeTask s uid fid t) := by
  intro i u h
  rw [lookup_closeTask]
  by_cases hi : i = uid
  · subst hi
    rw [if_pos rfl, h]
    exact ⟨closeUpd fid t u, rfl, closeUpd_core fid t u⟩
  · rw [if_neg hi]
    exact ⟨u, h, rfl, rfl, rfl⟩

theorem processFindings_preserves (startD endD : Int) :
    ∀ (fs : List Finding) (s s' : Store) (b : Bool),
      processFindings startD endD s fs = .ok (s', b) →
      preservesCore s s' := by
  intro fs
  induction fs with
  | nil =>
    intro s s' b h
    simp only [processFindings, Except.ok.injEq, Prod.mk.injEq] at h
    exact h.1 ▸ preservesCore_refl s
  | cons f rest ih =>
    intro s s' b h
    by_cases hm : f.is_mitigated
    · by_cases h1 : endD < f.mitigated.day
      · exact ih s s' b (by simpa [processFindings, hm, h1] using h)
      · by_cases h2 : f.mitigated.day < startD
        · rw [show processFindings startD endD s (f :: rest) = .ok (s, false)
            from by simp [processFindings, hm, h1, h2]] at h
          cases h
          exact preservesCore_refl s
        · have h' : processFindings startD endD
              (closeTask s (toString f.mitigated_by) f.id .closed) rest =
              .ok (s', b) := by
            simpa [processFindings, hm, h1, h2] using h
          exact preservesCore_trans
            (closeTask_preserves s (toString f.mitigated_by) f.id .closed)
            (ih _ s' b h')
    · by_cases hr : f.risk_accepted
      · cases hl : f.accepted_risks with
        | nil => simp [processFindings, hm, hr, hl] at h
        | cons ra rs =>
          by_cases h1 : endD < ra.created.day
          · exact ih s s' b (by simpa [processFindings, hm, hr, hl, h1] using h)
          · by_cases h2 : ra.created.day < startD
            · by_cases h3 : ra.created = ra.updated
              · have e : ra.updated = ra.created := h3.symm
                rw [show processFindings startD endD s (f :: rest) =
                    .ok (s, false)
                  from by simp [processFindings, hm, hr, hl, h1, h2, e]] at h
                cases h
                exact preservesCore_refl s
              · exact ih s s' b
                  (by simpa [processFindings, hm, hr, hl, h1, h2, h3] using h)
            · have h' : processFindings startD endD
                  (closeTask s (toString ra.owner) f.id .riskAccepted) rest =
                  .ok (s', b) := by
                simpa [processFindings, hm, hr, hl, h1, h2] using h
              exact preservesCore_trans
                (closeTask_preserves s (toString ra.owner) f.id .riskAccepted)
                (ih _ s' b h')
      · exact ih s s' b (by simpa [processFindings, hm, hr] using h)

theorem getFindings_preserves (startD endD : Int) :
    ∀ (responses : List (Option Page)) (s s' : Store),
      getFindings startD endD s responses = .ok s' →
      preservesCore s s' := by
  intro responses
  induction responses with
  | nil => intro s s' h; simp [getFindings] at h
  | cons resp rest ih =>
    intro s s' h
    cases resp with
    | none => simp [getFindings] at h
    | some page =>
      simp only [getFindings] at h
      rcases hp : processFindings startD endD s page.results with e | ⟨s₁, cont⟩
      · rw [hp] at h
        cases h
      · rw [hp] at h
        have hpres :=
          processFindings_preserves startD endD page.results s s₁ cont hp
        have h' : (if (cont && page.next) = true then
            getFindings startD endD s₁ rest else Except.ok s₁) =
            Except.ok s' := h
        by_cases hc : (cont && page.next) = true
        · rw [if_pos hc] at h'
          exact preservesCore_trans hpres (ih s₁ s' h')
        · rw [if_neg hc] at h'
          cases h'
          exact hpres

/-! ## C3 and C4: debt accrual -/

/-- After a statistics run, each user's stored debt equals the previous
debt plus `norm` minus the post-scan `closed + risk_accepted` counters
(shared helper for the debt claims). -/
theorem getStatistic_debt_lookup (startD endD : Int) (users : Store)
    (responses : List (Option Page)) (save : Bool) (s₁ sF : Store)
    (i : String) (u₀ u₁ : User)
    (hscan : getFindings startD endD users responses = .ok s₁)
    (h₀ : lookup users i = some u₀)
    (h₁ : lookup s₁ i = some u₁)
    (hstat : getStatistic startD endD users responses save = .ok sF) :
    ∃ uF, lookup sF i = some uF ∧
      uF.debt = u₀.debt + (u₀.norm : Int)
        - ((u₁.closed : Int) + (u₁.risk_accepted : Int)) := by
  obtain ⟨u₁', hl', hn', hm', hd'⟩ :=
    getFindings_preserves startD endD responses users s₁ hscan i u₀ h₀
  rw [hl'] at h₁
  cases h₁
  cases save with
  | false =>
    have h' := hstat
    simp [getStatistic, hscan] at h'
    subst h'
    refine ⟨{ u₁ with debt := u₁.debt + (u₁.norm : Int)
        - ((u₁.closed : Int) + (u₁.risk_accepted : Int)) }, ?_, ?_⟩
    · rw [lookup_calculateDebts, hl']
      rfl
    · simp [hm', hd']
  | true =>
    have h' := hstat
    simp [getStatistic, hscan] at h'
    subst h'
    refine ⟨{ u₁ with
        debt := u₁.debt + (u₁.norm : Int)
          - ((u₁.closed : Int) + (u₁.risk_accepted : Int)),
        task_closed := 0, closed := 0, risk_accepted := 0 }, ?_, ?_⟩
    · rw [lookup_cleanStats, lookup_calculateDebts, hl']
      rfl
    · simp [hm', hd']

/-- C3. After statistics processing, every user's `debt` equals its
previous value plus `norm` minus the `closed + risk_accepted` counters
the scan accumulated (the counters start at zero, so the post-scan
counter values are exactly the scan's contribution); the adjustment is
applied once, after the full scan, whether or not the run is saved. -/
theorem debt_accrual (startD endD : Int) (users : Store)
    (responses : List (Option Page)) (save : Bool) (s₁ sF : Store)
    (i : String) (u₀ u₁ : User)
    (hscan : getFindings startD endD users responses = .ok s₁)
    (h₀ : lookup users i = some u₀)
    (hc : u₀.closed = 0) (hr : u₀.risk_accepted = 0)
    (h₁ : lookup s₁ i = some u₁)
    (hstat : getStatistic startD endD users responses save = .ok sF) :
    ∃ uF, lookup sF i = some uF ∧
      uF.debt = u₀.debt + (u₀.norm : Int)
        - ((u₁.closed : Int) + (u₁.risk_accepted : Int)) :=
  getStatistic_debt_lookup startD endD users responses save s₁ sF i u₀ u₁
    hscan h₀ h₁ hstat

/-- A store after the sample scan of one in-window mitigated finding. -/
def wUserScanned : User :=
  { name := "alice", norm := 5, closed := 1, risk_accepted := 0,
    task_closed := 1, debt := 2, tasks := [11] }

/-- The scanned sample store. -/
def wStoreScanned : Store := [("42", wUserScanned)]

/-- Witness for C3: the sample store, one mitigated finding inside the
window `[1, 7]`, no save. -/
theorem debt_accrual_witness :
    ∃ uF, lookup (calculateDebts wStoreScanned) "42" = some uF ∧
      uF.debt = wUser.debt + (wUser.norm : Int)
        - ((wUserScanned.closed : Int) + (wUserScanned.risk_accepted : Int)) :=
  debt_accrual 1 7 wStore [some ⟨[wMit 3 10], false⟩] false wStoreScanned
    (calculateDebts wStoreScanned) "42" wUser wUserScanned rfl rfl rfl rfl
    rfl rfl

/-- A sample user whose norm is below the period total. -/
def wUserZeroNorm : User :=
  { name := "bob", norm := 0, closed := 0, risk_accepted := 0,
    task_closed := 0, debt := 5, tasks := [] }

/-- C4 counterexample: a persisted statistics run over a store whose
user closed one finding against a norm of zero writes debt 4 where 5
was read — the debt decreased. -/
theorem debt_monotonic_counterexample :
    getStatistic 1 7 [("42", wUserZeroNorm)] [some ⟨[wMit 3 10], false⟩]
      true =
      .ok [("42", { name := "bob", norm := 0, closed := 0, risk_accepted := 0,
                    task_closed := 0, debt := 4, tasks := [] })] ∧
    (4 : Int) < wUserZeroNorm.debt :=
  ⟨rfl, by decide⟩

/-- C4 (amended). Across a persisted statistics run the debt written is
the debt read plus `norm - (closed + risk_accepted)`; it never
decreases provided the user's post-scan period total
`closed + risk_accepted` does not exceed `norm` (over-performing users
do see their debt reduced). -/
theorem debt_monotonic_when_within_norm (startD endD : Int) (users : Store)
    (responses : List (Option Page)) (s₁ sF : Store)
    (i : String) (u₀ u₁ : User)
    (hscan : getFindings startD endD users responses = .ok s₁)
    (h₀ : lookup users i = some u₀)
    (h₁ : lookup s₁ i = some u₁)
    (hstat : getStatistic startD endD users responses true = .ok sF)
    (hle : u₁.closed + u₁.risk_accepted ≤ u₀.norm) :
    ∃ uF, lookup sF i = some uF ∧ u₀.debt ≤ uF.debt := by
  obtain ⟨uF, hlF, hdF⟩ :=
    getStatistic_debt_lookup startD endD users responses true s₁ sF i u₀ u₁
      hscan h₀ h₁ hstat
  exact ⟨uF, hlF, by rw [hdF]; omega⟩

/-- Witness for C4: the sample save run (norm 5, one closure) does not
decrease debt. -/
theorem debt_monotonic_when_within_norm_witness :
    ∃ uF, lookup (cleanStats (calculateDebts wStoreScanned)) "42" =
      some uF ∧ wUser.debt ≤ uF.debt :=
  debt_monotonic_when_within_norm 1 7 wStore [some ⟨[wMit 3 10], false⟩]
    wStoreScanned (cleanStats (calculateDebts wStoreScanned)) "42" wUser
    wUserScanned rfl rfl rfl rfl (by decide)

/-! ## C5: each pool finding is assigned to at most one user -/

/-- Two store entries have disjoint assigned-task lists. -/
def tasksDisjoint (a b : String × User) : Prop :=
  ∀ x, x ∈ a.2.tasks → x ∉ b.2.tasks

theorem erase_id_not_mem (pool : List Finding) (f : Finding)
    (hn : (pool.map Finding.id).Nodup) (hf : f ∈ pool) :
    f.id ∉ (pool.erase f).map Finding.id := by
  intro hmem
  obtain ⟨g, hg, hgid⟩ := List.mem_map.mp hmem
  have hpool : pool.Nodup := List.Nodup.of_map Finding.id hn
  have hgf : g ≠ f ∧ g ∈ pool := (hpool.mem_erase_iff).mp hg
  exact hgf.1 (List.inj_on_of_nodup_map hn hgf.2 hf hgid)

/-- The draw loop: the fetched pool keeps distinct ids, shrinks as a
sublist, every new task id came from the pool, and after drawing no
task of the user is still in the remaining pool. -/
theorem drawTasks_inv : ∀ (n : Nat) (u : User) (pool : List Finding)
    (picks : List Nat) (u' : User) (pool' : List Finding)
    (picks' : List Nat),
    (pool.map Finding.id).Nodup →
    (∀ x ∈ u.tasks, x ∉ pool.map Finding.id) →
    drawTasks u pool picks n = .ok (u', pool', picks') →
    (pool'.map Finding.id).Nodup ∧
    pool'.Sublist pool ∧
    (∀ x ∈ u'.tasks, x ∈ u.tasks ∨ x ∈ pool.map Finding.id) ∧
    (∀ x ∈ u'.tasks, x ∉ pool'.map Finding.id) := by
  intro n
  induction n with
  | zero =>
    intro u pool picks u' pool' picks' hn hdisj h
    simp [drawTasks] at h
    obtain ⟨h1, h2, h3⟩ := h
    subst h1
    subst h2
    exact ⟨hn, List.Sublist.refl pool, fun x hx => Or.inl hx, hdisj⟩
  | succ n ih =>
    intro u pool picks u' pool' picks' hn hdisj h
    match pool, hn, hdisj with
    | [], _, _ => simp [drawTasks] at h
    | f₀ :: fs, hn, hdisj =>
      simp only [drawTasks] at h
      set f := (f₀ :: fs).get
        ⟨picks.headD 0 % (f₀ :: fs).length,
         Nat.mod_lt _ (Nat.succ_pos fs.length)⟩ with hfdef
      have hfmem : f ∈ f₀ :: fs := List.get_mem _ _ _
      have hsub1 : ((f₀ :: fs).erase f).Sublist (f₀ :: fs) :=
        List.erase_sublist f (f₀ :: fs)
      have hn1 : (((f₀ :: fs).erase f).map Finding.id).Nodup :=
        List.Nodup.sublist (List.Sublist.map Finding.id hsub1) hn
      have hids1 : ∀ x ∈ ((f₀ :: fs).erase f).map Finding.id,
          x ∈ (f₀ :: fs).map Finding.id :=
        fun x hx => (List.Sublist.map Finding.id hsub1).subset hx
      have hdisj1 : ∀ x ∈ u.tasks ++ [f.id],
          x ∉ ((f₀ :: fs).erase f).map Finding.id := by
        intro x hx
        rcases List.mem_append.mp hx with hx | hx
        · exact fun hc => hdisj x hx (hids1 x hc)
        · have hx' : x = f.id := by simpa using hx
          subst hx'
          exact erase_id_not_mem (f₀ :: fs) f hn hfmem
      obtain ⟨c1, c2, c3, c4⟩ :=
        ih { u with tasks := u.tasks ++ [f.id] } ((f₀ :: fs).erase f)
          picks.tail u' pool' picks' hn1 hdisj1 h
      refine ⟨c1, c2.trans hsub1, ?_, c4⟩
      intro x hx
      rcases c3 x hx with hx' | hx'
      · rcases List.mem_append.mp hx' with hx'' | hx''
        · exact Or.inl hx''
        · have hx3 : x = f.id := by simpa using hx''
          subst hx3
          exact Or.inr (List.mem_map_of_mem Finding.id hfmem)
      · exact Or.inr (hids1 x hx')

/-- The per-user loop: distinct pool ids and initially disjoint task
lists stay disjoint; every task id of the output either came from the
input pool or from some input task list; no output task id remains in
the leftover pool. -/
theorem assignAll_inv : ∀ (users : List (String × User))
    (pool : List Finding) (picks : List Nat) (users' : Store)
    (pool' : List Finding) (picks' : List Nat),
    (pool.map Finding.id).Nodup →
    (∀ ku ∈ users, ∀ x ∈ ku.2.tasks, x ∉ pool.map Finding.id) →
    users.Pairwise tasksDisjoint →
    assignAll users pool picks = .ok (users', pool', picks') →
    users'.Pairwise tasksDisjoint ∧
    (pool'.map Finding.id).Nodup ∧
    pool'.Sublist pool ∧
    (∀ ku ∈ users', ∀ x ∈ ku.2.tasks, x ∉ pool'.map Finding.id) ∧
    (∀ ku ∈ users', ∀ x ∈ ku.2.tasks,
      x ∈ pool.map Finding.id ∨ ∃ kv ∈ users, x ∈ kv.2.tasks) := by
  intro users
  induction users with
  | nil =>
    intro pool picks users' pool' picks' hn hdisj hpw h
    simp [assignAll] at h
    obtain ⟨h1, h2, h3⟩ := h
    subst h1
    subst h2
    exact ⟨List.Pairwise.nil, hn, List.Sublist.refl pool, by simp, by simp⟩
  | cons ku rest ih =>
    intro pool picks users' pool' picks' hn hdisj hpw h
    obtain ⟨k, u⟩ := ku
    rcases hd : drawTasks u pool picks u.norm with e | ⟨u₁, pool₁, picks₁⟩
    · simp [assignAll, hd] at h
    · rcases ha : assignAll rest pool₁ picks₁ with e | ⟨rest', pool₂, picks₂⟩
      · simp [assignAll, hd, ha] at h
      · have hstep : users' = (k, u₁) :: rest' ∧ pool' = pool₂ ∧
            picks' = picks₂ := by
          have := h
          simp only [assignAll, hd, ha, Except.ok.injEq, Prod.mk.injEq]
            at this
          exact ⟨this.1.symm, this.2.1.symm, this.2.2.symm⟩
        obtain ⟨hu', hp', hk'⟩ := hstep
        subst hu'
        subst hp'
        obtain ⟨d1, d2, d3, d4⟩ := drawTasks_inv u.norm u pool picks u₁
          pool₁ picks₁ hn
          (hdisj (k, u) (List.mem_cons_self (k, u) rest)) hd
        have hdisj1 : ∀ kv ∈ rest, ∀ x ∈ kv.2.tasks,
            x ∉ pool₁.map Finding.id := by
          intro kv hkv x hx hc
          exact hdisj kv (List.mem_cons_of_mem (k, u) hkv) x hx
            ((List.Sublist.map Finding.id d2).subset hc)
        obtain ⟨a1, a2, a3, a4, a5⟩ := ih pool₁ picks₁ rest' _ picks₂
          d1 hdisj1 (List.pairwise_cons.mp hpw).2 ha
        refine ⟨?_, a2, a3.trans d2, ?_, ?_⟩
        · refine List.pairwise_cons.mpr ⟨?_, a1⟩
          intro kv hkv x hx hx'
          rcases a5 kv hkv x hx' with hcase | ⟨kw, hkw, hkwx⟩
          · exact d4 x hx hcase
          · rcases d3 x hx with hx0 | hx0
            · exact (List.pairwise_cons.mp hpw).1 kw hkw x hx0 hkwx
            · exact hdisj kw (List.mem_cons_of_mem (k, u) hkw) x hkwx hx0
        · intro kv hkv x hx
          rcases List.mem_cons.mp hkv with hkv' | hkv'
          · subst hkv'
            exact fun hc =>
              d4 x hx ((List.Sublist.map Finding.id a3).subset hc)
          · exact a4 kv hkv' x hx
        · intro kv hkv x hx
          rcases List.mem_cons.mp hkv with hkv' | hkv'
          · subst hkv'
            rcases d3 x hx with hx0 | hx0
            · exact Or.inr ⟨(k, u), List.mem_cons_self (k, u) rest, hx0⟩
            · exact Or.inl hx0
          · rcases a5 kv hkv' x hx with hx0 | ⟨kw, hkw, hkwx⟩
            · exact Or.inl ((List.Sublist.map Finding.id d2).subset hx0)
            · exact Or.inr ⟨kw, List.mem_cons_of_mem (k, u) hkw, hkwx⟩

/-- C5. During assignment each fetched finding is drawn, appended to one
user's `tasks` and removed from the shared pool, so — given distinct
finding ids on the fetched page, task lists that are pairwise disjoint
to begin with, and no fetched id already assigned — after the run a
finding id still appears in at most one user's `tasks` list. -/
theorem assignment_at_most_one_user (users : Store) (page : Page)
    (picks : List Nat) (users' : Store) (pool' : List Finding)
    (hn : (page.results.map Finding.id).Nodup)
    (hdisj : ∀ ku ∈ users, ∀ x ∈ ku.2.tasks,
      x ∉ page.results.map Finding.id)
    (hpw : users.Pairwise tasksDisjoint)
    (h : assignTasks (some page) users picks = .ok (users', pool')) :
    users'.Pairwise tasksDisjoint := by
  rcases ha : assignAll users page.results picks with e | ⟨us', p', k'⟩
  · simp [assignTasks, ha] at h
  · have hu : users' = us' := by
      have := h
      simp only [assignTasks, ha, Except.ok.injEq, Prod.mk.injEq] at this
      exact this.1.symm
    subst hu
    exact (assignAll_inv users page.results picks users' p' k' hn hdisj
      hpw ha).1

/-- A sample user with quota 1 and no outstanding tasks. -/
def wAssignUser (nm : String) : User :=
  { name := nm, norm := 1, closed := 0, risk_accepted := 0,
    task_closed := 0, debt := 0, tasks := [] }

/-- A sample fetched page of three open findings with distinct ids. -/
def wPoolPage : Page := ⟨[wMit 3 100, wMit 3 101, wMit 3 102], false⟩

/-- Witness for C5: two users drawing from a three-finding pool end with
disjoint task lists. -/
theorem assignment_at_most_one_user_witness :
    ([("1", { wAssignUser "a" with tasks := [100] }),
      ("2", { wAssignUser "b" with tasks := [101] })] : Store).Pairwise
      tasksDisjoint :=
  assignment_at_most_one_user
    [("1", wAssignUser "a"), ("2", wAssignUser "b")] wPoolPage [0, 0]
    [("1", { wAssignUser "a" with tasks := [100] }),
     ("2", { wAssignUser "b" with tasks := [101] })]
    [wMit 3 102] (by decide) (by decide)
    (by simp [List.pairwise_cons, tasksDisjoint, wAssignUser]) rfl

end DDManager
